import Mathlib

/-!
# Verification of the domain-life-tracker aggregation engine

Shallow embedding of the core logic of `src/main.ts` and `src/view.ts`.

Modelling conventions:
* JS `Record<string, _>` objects are association lists with unique keys in
  insertion order (`lookupA` / `setA` / `eraseA` mirror property read, write
  and `delete`); uniqueness of keys is stated as a `Nodup` hypothesis where
  a proof needs it.
* `dateKey` strings of the form `YYYY-MM-DD` are modelled as integer day
  indices: the string representation is order-isomorphic to the day number
  (string comparison and `Array.sort()` on such keys agree with numeric
  order), and nothing in the verified code inspects the digits themselves.
* JS numbers (scores, aggregate values) are modelled as rationals `ℚ`; the
  algorithms use only `+`, `/`, `min` and rounding to 3 decimals, which are
  exact on the values in range (scores are integers in `[-2, 2]`).
* `new Date(ts)` local-calendar bucketing is modelled for a fixed UTC offset
  (in minutes, the sign convention of `Date.prototype.getTimezoneOffset`).
-/

namespace DomainLifeTracker

/-- `DomainLogEntry` from `main.ts`: a logged event.  `note` is `Option`al
(`undefined` in JS is `none`). -/
structure DomainLogEntry where
  stateId : String
  score : ℚ
  ts : Int
  note : Option String
  tzOffset : Int
deriving DecidableEq

/-- `LifeDomainState` from `main.ts`. -/
structure LifeDomainState where
  id : String
  name : String
  score : ℚ
deriving DecidableEq

/-- The `aggregationType` enumeration (`"sum" | "average" | "worst"`). -/
inductive AggregationType where
  | sum
  | average
  | worst
deriving DecidableEq

/-- `LifeDomain` from `main.ts`. -/
structure LifeDomain where
  id : String
  name : String
  states : List LifeDomainState
  aggregationType : AggregationType
deriving DecidableEq

/-- The `domains` list of `LifeDomainSettings`. -/
abbrev Settings := List LifeDomain

/-- The per-date map `Record<string, DomainLogEntry[]>` (domainId → entries). -/
abbrev DomainLogs := List (String × List DomainLogEntry)

/-- `LifeDomainDataStore.logs`: dateKey → domainId → entries. -/
abbrev Store := List (Int × DomainLogs)

/-- Property read `obj[k]` on a JS object modelled as an association list:
the first matching key wins (keys are unique in a JS object). -/
def lookupA {κ α : Type} [DecidableEq κ] (k : κ) : List (κ × α) → Option α
  | [] => none
  | p :: rest => if p.1 = k then some p.2 else lookupA k rest

/-- Property write `obj[k] = v` on a JS object: overwrites the existing key
in place, or appends a fresh key at the end (JS insertion order). -/
def setA {κ α : Type} [DecidableEq κ] (k : κ) (v : α) : List (κ × α) → List (κ × α)
  | [] => [(k, v)]
  | p :: rest => if p.1 = k then (k, v) :: rest else p :: setA k v rest

/-- `delete obj[k]` on a JS object: removes the (unique) key. -/
def eraseA {κ α : Type} [DecidableEq κ] (k : κ) : List (κ × α) → List (κ × α)
  | [] => []
  | p :: rest => if p.1 = k then rest else p :: eraseA k rest

/-- `getDateKeyFromTs` from `main.ts`: the local calendar date of `ts`,
as a day index.  `new Date(ts)` renders the instant at the local offset
(`tzOffset` minutes, `getTimezoneOffset` sign: local = UTC − offset), and
the `YYYY-MM-DD` key is order-isomorphic to the floored local day number. -/
def getDateKeyFromTs (tzOffset : Int) (ts : Int) : Int :=
  (ts - tzOffset * 60000).fdiv 86400000

/-- `String.prototype.trim`: strips leading and trailing whitespace.
Defined over the character list (Lean's own `String.trim` walks byte
positions by well-founded recursion, which proofs cannot evaluate); on the
whitespace characters that occur in notes the two agree. -/
def trimJS (s : String) : String :=
  ⟨((s.data.dropWhile Char.isWhitespace).reverse.dropWhile Char.isWhitespace).reverse⟩

/-- The note normalisation inside `addLog` (`note?.trim() || undefined`):
trim surrounding whitespace; an absent or all-whitespace note is stored as
no note at all (empty string is falsy in JS). -/
def trimNote (note : Option String) : Option String :=
  match note with
  | none => none
  | some s => if trimJS s = "" then none else some (trimJS s)

/-- Result of `addLog`: the (possibly updated) store plus the `Notice`
message shown on failure, if any. -/
structure AddLogResult where
  store : Store
  notice : Option String
deriving DecidableEq

/-- `addLog` from `main.ts` (lines 112–138).  Resolves the domain and state
by id (first match, as `Array.find`), aborts with a notice when either is
unknown, otherwise appends an entry carrying a snapshot of the state's
current score to the `(dateKey, domainId)` bucket, creating missing
buckets.  `ts` is the caller-supplied timestamp (`ts ?? Date.now()` is
resolved by the caller in this model); `tzOffset` is the fixed local
offset used both for bucketing and for the stored `tzOffset` field. -/
def addLog (settings : Settings) (store : Store) (tzOffset : Int)
    (domainId stateId : String) (note : Option String) (ts : Int) : AddLogResult :=
  match settings.find? (fun d => d.id == domainId) with
  | none => ⟨store, some "Domain not found."⟩
  | some domain =>
    match domain.states.find? (fun s => s.id == stateId) with
    | none => ⟨store, some "State not found."⟩
    | some state =>
      let dateKey := getDateKeyFromTs tzOffset ts
      let dayMap := (lookupA dateKey store).getD []
      let dayLogs := (lookupA domainId dayMap).getD []
      let entry : DomainLogEntry :=
        { stateId := stateId
          score := state.score
          ts := ts
          note := trimNote note
          tzOffset := tzOffset }
      ⟨setA dateKey (setA domainId (dayLogs ++ [entry]) dayMap) store, none⟩

/-- The raw bucket read `store[dateKey]?.[domainId]` (before the `?? []`
defaulting of `getLogsForDate`). -/
def storeLookup (store : Store) (dateKey : Int) (domainId : String) :
    Option (List DomainLogEntry) :=
  (lookupA dateKey store).bind (lookupA domainId)

/-- `getLogsForDate` from `main.ts` (lines 140–142):
`this.dataStore.logs[dateKey]?.[domainId] ?? []`. -/
def getLogsForDate (store : Store) (dateKey : Int) (domainId : String) :
    List DomainLogEntry :=
  (storeLookup store dateKey domainId).getD []

/-- `Array.prototype.splice(i, 1)`: removes the element at index `i`
(a no-op when `i` is out of range; negative indices do not occur at the
call sites). -/
def spliceRemoveOne {α : Type} (l : List α) (i : Nat) : List α :=
  l.take i ++ l.drop (i + 1)

/-- `deleteLogs` from `main.ts` (lines 212–231).  Precedence: positional
`entryIndex` first, then `stateId` filter, then deletion of the whole
domain bucket; afterwards the date key is removed when its domain map has
no keys left.  A missing `(dateKey, domainId)` bucket is a silent no-op. -/
def deleteLogs (store : Store) (dateKey : Int) (domainId : String)
    (stateId : Option String) (entryIndex : Option Nat) : Store :=
  match storeLookup store dateKey domainId with
  | none => store
  | some dayLogs =>
    let dayMap := (lookupA dateKey store).getD []
    let s1 :=
      match entryIndex with
      | some i => setA dateKey (setA domainId (spliceRemoveOne dayLogs i) dayMap) store
      | none =>
        match stateId with
        | some sid =>
          setA dateKey (setA domainId (dayLogs.filter (fun e => e.stateId != sid)) dayMap) store
        | none => setA dateKey (eraseA domainId dayMap) store
    match lookupA dateKey s1 with
    | none => s1
    | some m => if m.isEmpty then eraseA dateKey s1 else s1

/-- The store invariant claimed by the spec: no empty per-domain entry
sequence and no empty per-date mapping is ever persisted. -/
def wellPruned (store : Store) : Bool :=
  store.all (fun p => !p.2.isEmpty && p.2.all (fun q => !q.2.isEmpty))

/-- `DomainAggregate` from `view.ts`: per-(date, domain) statistics. -/
structure DomainAggregate where
  sum : ℚ
  count : Nat
  worst : ℚ
deriving DecidableEq

/-- `DomainAggregateIndex` from `view.ts`: dateKey → domainId → aggregate
(`Map`s modelled as association lists in insertion order). -/
abbrev AggIndex := List (Int × List (String × DomainAggregate))

/-- The aggregate computed for one bucket inside
`buildDomainAggregateIndex`: `sum` by `reduce((acc, l) => acc + l.score, 0)`,
`count` by `length`, `worst` by
`reduce((acc, l) => Math.min(acc, l.score), logs[0]?.score ?? 0)`. -/
def aggOf (logs : List DomainLogEntry) : DomainAggregate :=
  { sum := logs.foldl (fun acc l => acc + l.score) 0
    count := logs.length
    worst := logs.foldl (fun acc l => min acc l.score) (((logs.head?).map (fun l => l.score)).getD 0) }

/-- `buildDomainAggregateIndex` from `view.ts` (lines 844–860): one pass
over the dates and domains present in the store, `Map.get`/`Map.set`
building the nested index. -/
def buildDomainAggregateIndex (store : Store) : AggIndex :=
  store.foldl
    (fun index p =>
      p.2.foldl
        (fun index q =>
          let entry := (lookupA p.1 index).getD []
          setA p.1 (setA q.1 (aggOf q.2) entry) index)
        index)
    []

/-- `aggregateFromIndex` from `view.ts` (lines 862–878): resolves a policy
over the index; a missing `(dateKey, domainId)` pair yields `0`, `average`
divides `sum` by `count` guarding `count = 0`. -/
def aggregateFromIndex (index : AggIndex) (dateKey : Int) (domainId : String)
    (aggregation : AggregationType) : ℚ :=
  match (lookupA dateKey index).bind (lookupA domainId) with
  | none => 0
  | some a =>
    match aggregation with
    | .average => if a.count = 0 then 0 else a.sum / (a.count : ℚ)
    | .worst => a.worst
    | .sum => a.sum

/-- The per-date slice of the aggregate index: every domain bucket mapped
through `aggOf`. -/
def mapAgg (doms : DomainLogs) : List (String × DomainAggregate) :=
  doms.map (fun q => (q.1, aggOf q.2))

/-- Closed form of the built index: one entry per (nonempty) date of the
store, in store order, each domain bucket aggregated. -/
def aggIndexSpec (store : Store) : AggIndex :=
  store.filterMap (fun p => if p.2.isEmpty then none else some (p.1, mapAgg p.2))

/-- The `RangeKey` union type of `view.ts`. -/
inductive RangeKey where
  | d7
  | d30
  | d90
  | d365
  | all
deriving DecidableEq

/-- `parseInt(rangeKey.replace("d", ""), 10)` for the fixed windows;
`"all"` has no window. -/
def RangeKey.windowDays : RangeKey → Option Nat
  | .d7 => some 7
  | .d30 => some 30
  | .d90 => some 90
  | .d365 => some 365
  | .all => none

/-- Insertion of one key into an ascending list (helper for `sortAsc`). -/
def insertAsc (x : Int) : List Int → List Int
  | [] => [x]
  | y :: ys => if x ≤ y then x :: y :: ys else y :: insertAsc x ys

/-- `Array.prototype.sort()` on `YYYY-MM-DD` keys: lexicographic string
order on such keys is exactly ascending day order, modelled as an
insertion sort (observationally equal on the distinct keys of a store). -/
def sortAsc (l : List Int) : List Int :=
  l.foldr insertAsc []

/-- `buildDateRange` from `view.ts` (lines 795–809): for `"all"`, the
sorted stored dates (or `[todayKey]` when the store is empty); for a fixed
window of `days`, the loop `for (i = days - 1; i >= 0; i--)` pushing the
key `days - 1 - i` days before today, i.e. the window ending at today. -/
def buildDateRange (rangeKey : RangeKey) (availableDates : List Int)
    (todayKey : Int) : List Int :=
  let sorted := sortAsc availableDates
  match rangeKey.windowDays with
  | none => if sorted.isEmpty then [todayKey] else sorted
  | some days => ((List.range days).reverse).map (fun (i : Nat) => todayKey - (i : Int))

/-- The sampling loop of `downsample`:
`for (let i = 0; i < points.length; i += step) sampled.push(points[i])`. -/
def sampleLoop {α : Type} (points : List α) (step : Nat) (i : Nat) : List α :=
  if h : i < points.length ∧ 0 < step then
    points.get ⟨i, h.1⟩ :: sampleLoop points step (i + step)
  else []
termination_by points.length - i
decreasing_by omega

/-- `downsample` from `view.ts` (lines 729–737): identity under the
budget, else fixed-stride decimation with `step = Math.ceil(length /
maxPoints)`.  For `maxPoints = 0` (never passed by the callers) JS has
`step = Infinity` and the loop body runs exactly once. -/
def downsample {α : Type} (points : List α) (maxPoints : Nat) : List α :=
  if points.length ≤ maxPoints then points
  else if maxPoints = 0 then points.take 1
  else sampleLoop points ((points.length + maxPoints - 1) / maxPoints) 0

/-- `buildPoints` from `view.ts` (lines 706–727): sorted stored dates,
filtered to the window start (for fixed ranges) and to keys not after
today, mapped through `valueFn`, then downsampled to the display budget
(90 for fixed windows, 180 for `"all"`). -/
def buildPoints {α : Type} (store : Store) (rangeKey : RangeKey)
    (todayKey : Int) (valueFn : Int → α) : List (Int × α) :=
  let dates := sortAsc (store.map Prod.fst)
  if dates.isEmpty then []
  else
    let startDate : Option Int := rangeKey.windowDays.map (fun (n : Nat) => todayKey - ((n : Int) - 1))
    let points := dates.filterMap (fun dateKey =>
      if (match startDate with | some s => decide (dateKey < s) | none => false) then none
      else if todayKey < dateKey then none
      else some (dateKey, valueFn dateKey))
    downsample points (if rangeKey = RangeKey.all then 180 else 90)

/-- `Number(x.toFixed(3))`: the nearest multiple of `1/1000`, ties toward
`+∞` (ECMAScript `toFixed` picks the larger candidate on a tie). -/
def round3 (x : ℚ) : ℚ :=
  ((⌊x * 1000 + 1 / 2⌋ : ℤ) : ℚ) / 1000

/-- `applyMovingAverage` from `view.ts` (lines 783–793): identity for
`window <= 1`; otherwise each index `i` averages the slice
`values.slice(max(0, i - window + 1), i + 1)` and rounds to 3 decimals. -/
def applyMovingAverage (values : List ℚ) (window : Nat) : List ℚ :=
  if window ≤ 1 then values
  else
    (List.range values.length).map (fun i =>
      let start := i + 1 - window
      let slice := (values.drop start).take (i + 1 - start)
      round3 ((slice.foldl (fun acc v => acc + v) 0) / (slice.length : ℚ)))

/-- The score-slider handler of `settings.ts` (line 115,
`state.score = value`): updates the score of one state of one domain in
the settings, identified positionally, touching nothing else. -/
def modifyStateScore (settings : Settings) (domainIdx stateIdx : Nat) (value : ℚ) :
    Settings :=
  settings.mapIdx (fun di d =>
    if di = domainIdx then
      { d with states := d.states.mapIdx (fun si s =>
          if si = stateIdx then { s with score := value } else s) }
    else d)

/-- The mutable plugin state: `settings` and `dataStore` of
`LifeDomainTrackerPlugin`. -/
structure PluginState where
  settings : Settings
  dataStore : Store
deriving DecidableEq

/-- `addLog` as an operation on the whole plugin state: reads the
settings, updates only the data store. -/
def addLogP (p : PluginState) (tzOffset : Int) (domainId stateId : String)
    (note : Option String) (ts : Int) : PluginState × Option String :=
  let r := addLog p.settings p.dataStore tzOffset domainId stateId note ts
  (⟨p.settings, r.store⟩, r.notice)

/-- The score-slider mutation as an operation on the whole plugin state:
updates only the settings. -/
def setStateScoreP (p : PluginState) (domainIdx stateIdx : Nat) (value : ℚ) :
    PluginState :=
  ⟨modifyStateScore p.settings domainIdx stateIdx value, p.dataStore⟩

/-! ## Association-list lemmas (JS object semantics) -/

theorem lookupA_eq_none_of_not_mem {κ α : Type} [DecidableEq κ] {k : κ}
    {l : List (κ × α)} (h : k ∉ l.map Prod.fst) : lookupA k l = none := by
  induction l with
  | nil => rfl
  | cons p rest ih =>
    simp only [List.map_cons, List.mem_cons] at h
    push_neg at h
    have hne : p.1 ≠ k := fun hh => h.1 hh.symm
    simp only [lookupA, if_neg hne, ih h.2]

theorem lookupA_some_mem {κ α : Type} [DecidableEq κ] {k : κ} {v : α}
    {l : List (κ × α)} (h : lookupA k l = some v) : (k, v) ∈ l := by
  induction l with
  | nil => simp [lookupA] at h
  | cons p rest ih =>
    obtain ⟨p1, p2⟩ := p
    by_cases hk : p1 = k
    · simp only [lookupA, if_pos hk] at h
      cases h
      subst hk
      exact List.mem_cons_self _ _
    · simp only [lookupA, if_neg hk] at h
      exact List.mem_cons_of_mem _ (ih h)

theorem setA_of_lookupA_none {κ α : Type} [DecidableEq κ] {k : κ} (v : α)
    {l : List (κ × α)} (h : lookupA k l = none) : setA k v l = l ++ [(k, v)] := by
  induction l with
  | nil => rfl
  | cons p rest ih =>
    simp only [lookupA] at h
    split at h
    · cases h
    · rename_i hk
      simp only [setA, if_neg hk, List.cons_append, ih h]

theorem lookupA_append_of_none {κ α : Type} [DecidableEq κ] {k : κ}
    {a : List (κ × α)} (b : List (κ × α)) (h : lookupA k a = none) :
    lookupA k (a ++ b) = lookupA k b := by
  induction a with
  | nil => rfl
  | cons p rest ih =>
    simp only [lookupA] at h ⊢
    split at h
    · cases h
    · rename_i hk
      simp only [List.cons_append, lookupA, if_neg hk]
      exact ih h

theorem lookupA_setA_self {κ α : Type} [DecidableEq κ] (k : κ) (v : α)
    (l : List (κ × α)) : lookupA k (setA k v l) = some v := by
  induction l with
  | nil => simp [setA, lookupA]
  | cons p rest ih =>
    by_cases hk : p.1 = k
    · simp [setA, hk, lookupA]
    · simp [setA, hk, lookupA, ih]

theorem setA_append_self {κ α : Type} [DecidableEq κ] {k : κ} (v e : α)
    {l : List (κ × α)} (h : lookupA k l = none) :
    setA k v (l ++ [(k, e)]) = l ++ [(k, v)] := by
  induction l with
  | nil => simp [setA]
  | cons p rest ih =>
    simp only [lookupA] at h
    split at h
    · cases h
    · rename_i hk
      simp only [List.cons_append, setA, if_neg hk]
      exact congrArg (fun t => p :: t) (ih h)

theorem mem_setA {κ α : Type} [DecidableEq κ] {k : κ} {v : α} {x : κ × α}
    {l : List (κ × α)} (h : x ∈ setA k v l) : x ∈ l ∨ x = (k, v) := by
  induction l with
  | nil =>
    right
    simpa [setA] using h
  | cons p rest ih =>
    by_cases hk : p.1 = k
    · simp only [setA, if_pos hk, List.mem_cons] at h
      rcases h with h | h
      · right; exact h
      · left; exact List.mem_cons_of_mem _ h
    · simp only [setA, if_neg hk, List.mem_cons] at h
      rcases h with h | h
      · left; simp [h]
      · rcases ih h with h' | h'
        · left; exact List.mem_cons_of_mem _ h'
        · right; exact h'

theorem mem_eraseA {κ α : Type} [DecidableEq κ] {k : κ} {x : κ × α}
    {l : List (κ × α)} (h : x ∈ eraseA k l) : x ∈ l := by
  induction l with
  | nil => simp [eraseA] at h
  | cons p rest ih =>
    by_cases hk : p.1 = k
    · simp only [eraseA, if_pos hk] at h
      exact List.mem_cons_of_mem _ h
    · simp only [eraseA, if_neg hk, List.mem_cons] at h
      rcases h with h | h
      · simp [h]
      · exact List.mem_cons_of_mem _ (ih h)

theorem eraseA_of_lookupA_none {κ α : Type} [DecidableEq κ] {k : κ}
    {l : List (κ × α)} (h : lookupA k l = none) : eraseA k l = l := by
  induction l with
  | nil => rfl
  | cons p rest ih =>
    simp only [lookupA] at h
    split at h
    · cases h
    · rename_i hk
      simp only [eraseA, if_neg hk, ih h]

theorem eraseA_setA {κ α : Type} [DecidableEq κ] (k : κ) (v : α)
    (l : List (κ × α)) : eraseA k (setA k v l) = eraseA k l := by
  induction l with
  | nil => simp [setA, eraseA]
  | cons p rest ih =>
    by_cases hk : p.1 = k
    · simp [setA, hk, eraseA]
    · simp [setA, hk, eraseA, ih]

theorem lookupA_eraseA_self {κ α : Type} [DecidableEq κ] {k : κ}
    {l : List (κ × α)} (hnd : (l.map Prod.fst).Nodup) :
    lookupA k (eraseA k l) = none := by
  induction l with
  | nil => rfl
  | cons p rest ih =>
    simp only [List.map_cons, List.nodup_cons] at hnd
    by_cases hk : p.1 = k
    · simp only [eraseA, if_pos hk]
      refine lookupA_eq_none_of_not_mem ?_
      rw [← hk]
      exact hnd.1
    · simp only [eraseA, if_neg hk, lookupA, if_neg hk]
      exact ih hnd.2

/-! ## Aggregate index: structural characterisation -/

theorem innerFold_cont (dk : Int) (doms : DomainLogs) :
    ∀ (index : AggIndex) (entry : List (String × DomainAggregate)),
      lookupA dk index = none →
      (doms.map Prod.fst).Nodup →
      (∀ q ∈ doms, lookupA q.1 entry = none) →
      doms.foldl
        (fun index q => setA dk (setA q.1 (aggOf q.2) ((lookupA dk index).getD [])) index)
        (index ++ [(dk, entry)])
      = index ++ [(dk, entry ++ mapAgg doms)] := by
  induction doms with
  | nil =>
    intro index entry _ _ _
    simp [mapAgg]
  | cons q rest ih =>
    intro index entry hfresh hnd hentry
    simp only [List.map_cons, List.nodup_cons] at hnd
    have h1 : lookupA dk (index ++ [(dk, entry)]) = some entry := by
      rw [lookupA_append_of_none _ hfresh]
      simp [lookupA]
    have h2 : setA q.1 (aggOf q.2) entry = entry ++ [(q.1, aggOf q.2)] :=
      setA_of_lookupA_none _ (hentry q (List.mem_cons_self _ _))
    have h3 : setA dk (entry ++ [(q.1, aggOf q.2)]) (index ++ [(dk, entry)]) =
        index ++ [(dk, entry ++ [(q.1, aggOf q.2)])] := setA_append_self _ _ hfresh
    have hrest : ∀ r ∈ rest, lookupA r.1 (entry ++ [(q.1, aggOf q.2)]) = none := by
      intro r hr
      rw [lookupA_append_of_none _ (hentry r (List.mem_cons_of_mem _ hr))]
      have hne : q.1 ≠ r.1 := by
        intro hc
        exact hnd.1 (hc ▸ List.mem_map_of_mem Prod.fst hr)
      simp [lookupA, hne]
    simp only [List.foldl_cons, h1, Option.getD_some, h2, h3]
    rw [ih index (entry ++ [(q.1, aggOf q.2)]) hfresh hnd.2 hrest]
    simp [mapAgg, List.append_assoc]

theorem innerFold_base (dk : Int) (doms : DomainLogs) (index : AggIndex)
    (hfresh : lookupA dk index = none) (hnd : (doms.map Prod.fst).Nodup) :
    doms.foldl
      (fun index q => setA dk (setA q.1 (aggOf q.2) ((lookupA dk index).getD [])) index)
      index
    = index ++ if doms.isEmpty then [] else [(dk, mapAgg doms)] := by
  cases doms with
  | nil => simp
  | cons q rest =>
    simp only [List.map_cons, List.nodup_cons] at hnd
    have h0 : setA dk (setA q.1 (aggOf q.2) ((lookupA dk index).getD [])) index =
        index ++ [(dk, [(q.1, aggOf q.2)])] := by
      rw [hfresh]
      exact setA_of_lookupA_none _ hfresh
    have hrest : ∀ r ∈ rest, lookupA r.1 [(q.1, aggOf q.2)] = none := by
      intro r hr
      have hne : q.1 ≠ r.1 := by
        intro hc
        exact hnd.1 (hc ▸ List.mem_map_of_mem Prod.fst hr)
      simp [lookupA, hne]
    simp only [List.foldl_cons, h0]
    rw [innerFold_cont dk rest index [(q.1, aggOf q.2)] hfresh hnd.2 hrest]
    simp [mapAgg]

theorem buildFold_eq (store : Store) :
    ∀ (index : AggIndex),
      (∀ p ∈ store, lookupA p.1 index = none) →
      (store.map Prod.fst).Nodup →
      (∀ p ∈ store, (p.2.map Prod.fst).Nodup) →
      store.foldl
        (fun index p =>
          p.2.foldl
            (fun index q => setA p.1 (setA q.1 (aggOf q.2) ((lookupA p.1 index).getD [])) index)
            index)
        index
      = index ++ aggIndexSpec store := by
  induction store with
  | nil =>
    intro index _ _ _
    simp [aggIndexSpec]
  | cons p rest ih =>
    intro index hfresh hnd hinner
    simp only [List.map_cons, List.nodup_cons] at hnd
    simp only [List.foldl_cons]
    rw [innerFold_base p.1 p.2 index (hfresh p (List.mem_cons_self _ _))
      (hinner p (List.mem_cons_self _ _))]
    have hfresh' : ∀ r ∈ rest,
        lookupA r.1 (index ++ if p.2.isEmpty then [] else [(p.1, mapAgg p.2)]) = none := by
      intro r hr
      rw [lookupA_append_of_none _ (hfresh r (List.mem_cons_of_mem _ hr))]
      by_cases he : p.2.isEmpty
      · simp [he, lookupA]
      · have hne : p.1 ≠ r.1 := by
          intro hc
          exact hnd.1 (hc ▸ List.mem_map_of_mem Prod.fst hr)
        simp [he, lookupA, hne]
    rw [ih _ hfresh' hnd.2 (fun r hr => hinner r (List.mem_cons_of_mem _ hr))]
    simp only [aggIndexSpec, List.filterMap_cons]
    by_cases he : p.2 = []
    · simp [he]
    · simp [he, List.append_assoc]

theorem buildDomainAggregateIndex_eq (store : Store)
    (h1 : (store.map Prod.fst).Nodup)
    (h2 : ∀ p ∈ store, (p.2.map Prod.fst).Nodup) :
    buildDomainAggregateIndex store = aggIndexSpec store := by
  have h := buildFold_eq store [] (fun p _ => rfl) h1 h2
  simpa [buildDomainAggregateIndex] using h

theorem lookupA_mapAgg (dom : String) (doms : DomainLogs) :
    lookupA dom (mapAgg doms) = (lookupA dom doms).map aggOf := by
  induction doms with
  | nil => rfl
  | cons q rest ih =>
    by_cases hq : q.1 = dom
    · simp [mapAgg, lookupA, hq]
    · simp only [mapAgg, List.map_cons, lookupA, if_neg hq] at ih ⊢
      exact ih

theorem keys_aggIndexSpec {store : Store} {k : Int}
    (h : k ∈ (aggIndexSpec store).map Prod.fst) : k ∈ store.map Prod.fst := by
  induction store with
  | nil => simp [aggIndexSpec] at h
  | cons p rest ih =>
    simp only [aggIndexSpec, List.filterMap_cons] at h
    by_cases he : p.2.isEmpty
    · simp only [he, if_pos] at h
      exact List.mem_cons_of_mem _ (ih h)
    · simp only [he, if_neg, Bool.false_eq_true, not_false_iff, List.map_cons,
        List.mem_cons] at h
      rcases h with h | h
      · simp [h]
      · exact List.mem_cons_of_mem _ (ih h)

theorem aggIndexSpec_cons (p : Int × DomainLogs) (rest : Store) :
    aggIndexSpec (p :: rest) =
      (if p.2.isEmpty then [] else [(p.1, mapAgg p.2)]) ++ aggIndexSpec rest := by
  simp only [aggIndexSpec, List.filterMap_cons]
  by_cases he : p.2 = [] <;> simp [he]

theorem lookupA_aggIndexSpec (store : Store)
    (hnd : (store.map Prod.fst).Nodup) (dk : Int) :
    lookupA dk (aggIndexSpec store) =
      (lookupA dk store).bind
        (fun doms => if doms.isEmpty then none else some (mapAgg doms)) := by
  induction store with
  | nil => rfl
  | cons p rest ih =>
    simp only [List.map_cons, List.nodup_cons] at hnd
    rw [aggIndexSpec_cons]
    by_cases hk : p.1 = dk
    · subst hk
      by_cases he : p.2 = []
      · have hnone : lookupA p.1 (aggIndexSpec rest) = none :=
          lookupA_eq_none_of_not_mem (fun hc => hnd.1 (keys_aggIndexSpec hc))
        simp [he, lookupA, hnone]
      · simp [he, lookupA]
    · by_cases he : p.2 = []
      · simp [he, lookupA, hk, ih hnd.2]
      · simp [he, lookupA, hk, ih hnd.2]

/-! ## Aggregate arithmetic lemmas -/

theorem foldl_add_score (logs : List DomainLogEntry) (a : ℚ) :
    logs.foldl (fun acc l => acc + l.score) a = a + (logs.map (fun l => l.score)).sum := by
  induction logs generalizing a with
  | nil => simp
  | cons e t ih => simp [ih, add_assoc]

theorem foldl_min_facts (l : List ℚ) (a : ℚ) :
    l.foldl min a ≤ a ∧ (∀ x ∈ l, l.foldl min a ≤ x) ∧
      (l.foldl min a = a ∨ l.foldl min a ∈ l) := by
  induction l generalizing a with
  | nil => simp
  | cons x t ih =>
    obtain ⟨h1, h2, h3⟩ := ih (min a x)
    refine ⟨h1.trans (min_le_left _ _), ?_, ?_⟩
    · intro y hy
      rcases List.mem_cons.1 hy with hy | hy
      · subst hy
        rw [List.foldl_cons]
        exact h1.trans (min_le_right _ _)
      · exact h2 y hy
    · rcases h3 with h3 | h3
      · rcases le_total a x with hax | hax
        · left
          rw [List.foldl_cons, h3, min_eq_left hax]
        · right
          rw [List.foldl_cons, h3, min_eq_right hax]
          exact List.mem_cons_self _ _
      · right
        exact List.mem_cons_of_mem _ (List.foldl_cons .. ▸ h3)

theorem foldl_min_score (logs : List DomainLogEntry) (a : ℚ) :
    logs.foldl (fun acc l => min acc l.score) a = (logs.map (fun l => l.score)).foldl min a := by
  induction logs generalizing a with
  | nil => rfl
  | cons e t ih => simp [ih]

theorem aggregateFromIndex_of_some {index : AggIndex} {dk : Int} {dom : String}
    {a : DomainAggregate} (h : (lookupA dk index).bind (lookupA dom) = some a) :
    aggregateFromIndex index dk dom .sum = a.sum ∧
    aggregateFromIndex index dk dom .worst = a.worst ∧
    aggregateFromIndex index dk dom .average =
      (if a.count = 0 then 0 else a.sum / (a.count : ℚ)) := by
  refine ⟨?_, ?_, ?_⟩ <;> simp [aggregateFromIndex, h]

theorem aggregateFromIndex_of_none {index : AggIndex} {dk : Int} {dom : String}
    (h : (lookupA dk index).bind (lookupA dom) = none) (agg : AggregationType) :
    aggregateFromIndex index dk dom agg = 0 := by
  simp [aggregateFromIndex, h]

/-- The built index, read back at a pair, is exactly the store bucket
aggregated: present buckets yield `aggOf`, absent buckets yield nothing. -/
theorem indexLookup_eq (store : Store)
    (h1 : (store.map Prod.fst).Nodup)
    (h2 : ∀ p ∈ store, (p.2.map Prod.fst).Nodup)
    (dk : Int) (dom : String) :
    (lookupA dk (buildDomainAggregateIndex store)).bind (lookupA dom) =
      (storeLookup store dk dom).map aggOf := by
  rw [buildDomainAggregateIndex_eq store h1 h2, lookupA_aggIndexSpec store h1]
  unfold storeLookup
  cases hdk : lookupA dk store with
  | none => simp
  | some doms =>
    by_cases he : doms = []
    · simp [he, lookupA]
    · simp [he, lookupA_mapAgg]

/-- C1: For every store, the aggregate index assigns to each
`(dateKey, domainId)` bucket present in the store the arithmetic sum of the
entries' captured scores, their count, and (for a nonempty bucket) their
minimum score as `worst`; and resolving a policy over the index returns the
stored `sum` for Sum, `sum / count` for Average (`0` when `count = 0`), the
stored `worst` for Worst, and `0` for any pair missing from the index. -/
theorem C1_aggregate_index_correct (store : Store)
    (h1 : (store.map Prod.fst).Nodup)
    (h2 : ∀ p ∈ store, (p.2.map Prod.fst).Nodup)
    (dateKey : Int) (domainId : String) :
    (∀ logs, storeLookup store dateKey domainId = some logs →
      (lookupA dateKey (buildDomainAggregateIndex store)).bind (lookupA domainId) =
        some (aggOf logs) ∧
      (aggOf logs).sum = (logs.map (fun l => l.score)).sum ∧
      (aggOf logs).count = logs.length ∧
      (logs ≠ [] →
        (aggOf logs).worst ∈ logs.map (fun l => l.score) ∧
        ∀ x ∈ logs.map (fun l => l.score), (aggOf logs).worst ≤ x) ∧
      aggregateFromIndex (buildDomainAggregateIndex store) dateKey domainId .sum =
        (aggOf logs).sum ∧
      aggregateFromIndex (buildDomainAggregateIndex store) dateKey domainId .worst =
        (aggOf logs).worst ∧
      aggregateFromIndex (buildDomainAggregateIndex store) dateKey domainId .average =
        (if logs.length = 0 then 0 else (aggOf logs).sum / (logs.length : ℚ))) ∧
    (storeLookup store dateKey domainId = none →
      ∀ agg, aggregateFromIndex (buildDomainAggregateIndex store) dateKey domainId agg = 0) := by
  have hidx := indexLookup_eq store h1 h2 dateKey domainId
  constructor
  · intro logs hsome
    rw [hsome] at hidx
    obtain ⟨hres1, hres2, hres3⟩ := aggregateFromIndex_of_some hidx
    refine ⟨hidx, ?_, rfl, ?_, hres1, hres2, ?_⟩
    · simp [aggOf, foldl_add_score]
    · intro hne
      obtain ⟨e, t, rfl⟩ := List.exists_cons_of_ne_nil hne
      have hworst : (aggOf (e :: t)).worst =
          ((e :: t).map (fun l => l.score)).foldl min e.score := by
        simp [aggOf, foldl_min_score]
      obtain ⟨hfa, hall, hmem⟩ := foldl_min_facts ((e :: t).map (fun l => l.score)) e.score
      constructor
      · rw [hworst]
        rcases hmem with hmem | hmem
        · rw [hmem]
          simp
        · exact hmem
      · intro x hx
        rw [hworst]
        exact hall x hx
    · rw [hres3]
      simp [aggOf]
  · intro hnone
    rw [hnone] at hidx
    exact fun agg => aggregateFromIndex_of_none hidx agg

/-- Witness for C1 at a concrete two-entry store: the Worst policy resolves
to the minimum captured score. -/
theorem C1_witness :
    aggregateFromIndex
      (buildDomainAggregateIndex [(0, [("d", [⟨"s1", 1, 100, none, 0⟩, ⟨"s2", -1, 200, none, 0⟩])])])
      0 "d" AggregationType.worst = -1 := by
  have h := (C1_aggregate_index_correct
      [(0, [("d", [⟨"s1", 1, 100, none, 0⟩, ⟨"s2", -1, 200, none, 0⟩])])]
      (by decide) (by decide) 0 "d").1
      [⟨"s1", 1, 100, none, 0⟩, ⟨"s2", -1, 200, none, 0⟩] (by decide)
  rw [h.2.2.2.2.2.1]
  norm_num [aggOf, List.foldl]

/-! ## Deletion and the pruning invariant (C2) -/

theorem wellPruned_iff (store : Store) :
    wellPruned store = true ↔ ∀ p ∈ store, p.2 ≠ [] ∧ ∀ q ∈ p.2, q.2 ≠ [] := by
  simp [wellPruned, List.all_eq_true]

/-- C2 counterexample: deleting the only entry of the only bucket by
`entryIndex` leaves the empty entry list — and hence the date key — in the
store, violating the claimed invariant. -/
theorem C2_counterexample :
    deleteLogs [(0, [("d", [⟨"s", 1, 100, none, 0⟩])])] 0 "d" none (some 0) =
      [(0, [("d", [])])] ∧
    wellPruned (deleteLogs [(0, [("d", [⟨"s", 1, 100, none, 0⟩])])] 0 "d" none (some 0)) =
      false := by
  constructor <;> decide

/-- C2 (amended): only whole-bucket deletion (`stateId` and `entryIndex`
both absent) prunes empty parents — it removes the domain key and removes
the `dateKey` entirely when no other domain had entries on that date, and
it preserves the no-empty-container invariant; deletions by `entryIndex`
or `stateId` leave the remaining (possibly empty) entry list in place. -/
theorem C2_whole_bucket_delete_prunes (store : Store)
    (hnd : (store.map Prod.fst).Nodup) (dateKey : Int) (domainId : String) :
    (wellPruned store = true →
      wellPruned (deleteLogs store dateKey domainId none none) = true) ∧
    (∀ logs, lookupA dateKey store = some [(domainId, logs)] →
      lookupA dateKey (deleteLogs store dateKey domainId none none) = none) := by
  constructor
  · intro hwp
    cases hsl : storeLookup store dateKey domainId with
    | none => simpa [deleteLogs, hsl] using hwp
    | some dayLogs =>
      obtain ⟨dayMap, hdk, hdom⟩ := Option.bind_eq_some.1 hsl
      simp only [deleteLogs, hsl, hdk, Option.getD_some, lookupA_setA_self]
      by_cases hE : (eraseA domainId dayMap).isEmpty
      · simp only [hE, if_pos]
        rw [eraseA_setA]
        rw [wellPruned_iff] at hwp ⊢
        exact fun p hp => hwp p (mem_eraseA hp)
      · simp only [hE, if_neg, Bool.false_eq_true, not_false_iff]
        rw [wellPruned_iff] at hwp ⊢
        intro p hp
        rcases mem_setA hp with hp | hp
        · exact hwp p hp
        · subst hp
          refine ⟨by simpa using hE, ?_⟩
          intro q hq
          exact (hwp (dateKey, dayMap) (lookupA_some_mem hdk)).2 q (mem_eraseA hq)
  · intro logs honly
    have hsl : storeLookup store dateKey domainId = some logs := by
      simp [storeLookup, honly, lookupA]
    have hE : eraseA domainId [(domainId, logs)] = [] := by
      simp [eraseA]
    simp only [deleteLogs, hsl, honly, Option.getD_some, hE, lookupA_setA_self,
      List.isEmpty_nil, if_pos]
    rw [eraseA_setA]
    exact lookupA_eraseA_self hnd

/-- Witness for C2 (amended) at a concrete one-entry store: whole-bucket
deletion keeps the invariant and removes the date key. -/
theorem C2_witness :
    wellPruned (deleteLogs [(0, [("d", [⟨"s", 1, 100, none, 0⟩])])] 0 "d" none none) = true ∧
    lookupA 0 (deleteLogs [(0, [("d", [⟨"s", 1, 100, none, 0⟩])])] 0 "d" none none) = none := by
  have h := C2_whole_bucket_delete_prunes [(0, [("d", [⟨"s", 1, 100, none, 0⟩])])]
    (by decide) 0 "d"
  exact ⟨h.1 (by decide), h.2 [⟨"s", 1, 100, none, 0⟩] (by decide)⟩

/-! ## Append round-trip machinery (C3, C8, C9, C10) -/

theorem getLogsForDate_setA_append (store : Store) (dk : Int) (dom : String)
    (e : DomainLogEntry) :
    getLogsForDate
      (setA dk
        (setA dom ((lookupA dom ((lookupA dk store).getD [])).getD [] ++ [e])
          ((lookupA dk store).getD []))
        store) dk dom
    = getLogsForDate store dk dom ++ [e] := by
  cases hdk : lookupA dk store with
  | none => simp [getLogsForDate, storeLookup, lookupA_setA_self, hdk, lookupA]
  | some m => simp [getLogsForDate, storeLookup, lookupA_setA_self, hdk]

/-- On a successful append, the store gains exactly one entry at the end of
the `(dateKey, domainId)` bucket, carrying a snapshot of the state's score
and the trimmed note. -/
theorem addLog_appends (settings : Settings) (store : Store) (tzOffset : Int)
    (domainId stateId : String) (note : Option String) (ts : Int)
    (domain : LifeDomain) (state : LifeDomainState)
    (hd : settings.find? (fun d => d.id == domainId) = some domain)
    (hs : domain.states.find? (fun s => s.id == stateId) = some state) :
    (addLog settings store tzOffset domainId stateId note ts).notice = none ∧
    getLogsForDate (addLog settings store tzOffset domainId stateId note ts).store
        (getDateKeyFromTs tzOffset ts) domainId =
      getLogsForDate store (getDateKeyFromTs tzOffset ts) domainId ++
        [⟨stateId, state.score, ts, trimNote note, tzOffset⟩] := by
  refine ⟨by simp [addLog, hd, hs], ?_⟩
  simp only [addLog, hd, hs]
  exact getLogsForDate_setA_append store _ domainId _

/-- C3: each appended entry's score is a snapshot of the State's score at
append time; mutating a State's score afterwards (the settings slider)
touches only the settings, leaving every stored entry — and therefore
every sum/average/worst aggregate computed over the stored entries —
unchanged. -/
theorem C3_score_snapshot (p : PluginState) (tzOffset : Int)
    (domainId stateId : String) (note : Option String) (ts : Int)
    (domainIdx stateIdx : Nat) (value : ℚ)
    (domain : LifeDomain) (state : LifeDomainState)
    (hd : p.settings.find? (fun d => d.id == domainId) = some domain)
    (hs : domain.states.find? (fun s => s.id == stateId) = some state) :
    getLogsForDate (addLogP p tzOffset domainId stateId note ts).1.dataStore
        (getDateKeyFromTs tzOffset ts) domainId =
      getLogsForDate p.dataStore (getDateKeyFromTs tzOffset ts) domainId ++
        [⟨stateId, state.score, ts, trimNote note, tzOffset⟩] ∧
    (setStateScoreP (addLogP p tzOffset domainId stateId note ts).1
        domainIdx stateIdx value).dataStore =
      (addLogP p tzOffset domainId stateId note ts).1.dataStore ∧
    (∀ dk dom agg,
      aggregateFromIndex
        (buildDomainAggregateIndex
          (setStateScoreP (addLogP p tzOffset domainId stateId note ts).1
            domainIdx stateIdx value).dataStore) dk dom agg =
      aggregateFromIndex
        (buildDomainAggregateIndex
          (addLogP p tzOffset domainId stateId note ts).1.dataStore) dk dom agg) := by
  refine ⟨?_, rfl, fun dk dom agg => rfl⟩
  exact (addLog_appends p.settings p.dataStore tzOffset domainId stateId note ts
    domain state hd hs).2

/-- Witness for C3 at a concrete configuration: appending with state score
2 stores an entry scoring 2 regardless of later slider edits. -/
theorem C3_witness :
    getLogsForDate
        (addLogP ⟨[⟨"d", "D", [⟨"s", "S", 2⟩], .sum⟩], []⟩ 0 "d" "s" none 0).1.dataStore
        (getDateKeyFromTs 0 0) "d" =
      getLogsForDate ([] : Store) (getDateKeyFromTs 0 0) "d" ++
        [⟨"s", 2, 0, trimNote none, 0⟩] := by
  exact (C3_score_snapshot ⟨[⟨"d", "D", [⟨"s", "S", 2⟩], .sum⟩], []⟩ 0 "d" "s" none 0
    0 0 5 ⟨"d", "D", [⟨"s", "S", 2⟩], .sum⟩ ⟨"s", "S", 2⟩ (by decide) (by decide)).1

/-- C8 counterexample: appending with note `" hi "` stores the trimmed
note `"hi"`, so the entry returned by the immediate query does not carry
the appended note verbatim. -/
theorem C8_counterexample :
    ((getLogsForDate
        (addLog [⟨"d", "D", [⟨"s", "S", 2⟩], .sum⟩] [] 0 "d" "s" (some " hi ") 0).store
        (getDateKeyFromTs 0 0) "d").map (fun e => e.note)) = [some "hi"] ∧
    (some " hi " : Option String) ≠ some "hi" := by
  constructor <;> decide

/-- C8 (amended): for resolvable ids, append followed immediately by
queryByDate for the timestamp's dateKey returns (as the bucket's last
entry) an entry whose `stateId` equals the appended stateId, whose `score`
equals the State's score at append time, and whose note is the appended
note *trimmed* (absent when blank) — so the note round-trips verbatim
exactly when it is already trimmed and nonempty. -/
theorem C8_append_query_roundtrip (settings : Settings) (store : Store)
    (tzOffset : Int) (domainId stateId : String) (note : Option String) (ts : Int)
    (domain : LifeDomain) (state : LifeDomainState)
    (hd : settings.find? (fun d => d.id == domainId) = some domain)
    (hs : domain.states.find? (fun s => s.id == stateId) = some state) :
    (getLogsForDate (addLog settings store tzOffset domainId stateId note ts).store
        (getDateKeyFromTs tzOffset ts) domainId).getLast? =
      some ⟨stateId, state.score, ts, trimNote note, tzOffset⟩ := by
  rw [(addLog_appends settings store tzOffset domainId stateId note ts domain state hd hs).2]
  exact List.getLast?_concat _

/-- Witness for C8 (amended) at a concrete configuration with an already
trimmed note. -/
theorem C8_witness :
    (getLogsForDate
        (addLog [⟨"d", "D", [⟨"s", "S", 2⟩], .sum⟩] [] 0 "d" "s" (some "hi") 0).store
        (getDateKeyFromTs 0 0) "d").getLast? =
      some ⟨"s", 2, 0, trimNote (some "hi"), 0⟩ := by
  exact C8_append_query_roundtrip [⟨"d", "D", [⟨"s", "S", 2⟩], .sum⟩] [] 0 "d" "s"
    (some "hi") 0 ⟨"d", "D", [⟨"s", "S", 2⟩], .sum⟩ ⟨"s", "S", 2⟩ (by decide) (by decide)

/-- C9: an append whose domain id or state id does not resolve surfaces
the corresponding notice, aborts, and returns the store unchanged. -/
theorem C9_not_found_aborts (settings : Settings) (store : Store) (tzOffset : Int)
    (domainId stateId : String) (note : Option String) (ts : Int) :
    (settings.find? (fun d => d.id == domainId) = none →
      addLog settings store tzOffset domainId stateId note ts =
        ⟨store, some "Domain not found."⟩) ∧
    (∀ domain, settings.find? (fun d => d.id == domainId) = some domain →
      domain.states.find? (fun s => s.id == stateId) = none →
      addLog settings store tzOffset domainId stateId note ts =
        ⟨store, some "State not found."⟩) := by
  constructor
  · intro h
    simp [addLog, h]
  · intro domain hd hs
    simp [addLog, hd, hs]

/-- Witness for C9: both failure modes at a concrete configuration. -/
theorem C9_witness :
    addLog [⟨"d", "D", [⟨"s", "S", 2⟩], .sum⟩] [] 0 "x" "s" none 0 =
      ⟨[], some "Domain not found."⟩ ∧
    addLog [⟨"d", "D", [⟨"s", "S", 2⟩], .sum⟩] [] 0 "d" "x" none 0 =
      ⟨[], some "State not found."⟩ := by
  refine ⟨(C9_not_found_aborts [⟨"d", "D", [⟨"s", "S", 2⟩], .sum⟩] [] 0 "x" "s" none 0).1
      (by decide), ?_⟩
  exact (C9_not_found_aborts [⟨"d", "D", [⟨"s", "S", 2⟩], .sum⟩] [] 0 "d" "x" none 0).2
    ⟨"d", "D", [⟨"s", "S", 2⟩], .sum⟩ (by decide) (by decide)

/-- C10: the stored entry's note is the input note with surrounding
whitespace trimmed; an omitted, empty, or all-whitespace input note is
stored as no note at all (`none`, never an empty string). -/
theorem C10_note_normalisation (settings : Settings) (store : Store)
    (tzOffset : Int) (domainId stateId : String) (note : Option String) (ts : Int)
    (domain : LifeDomain) (state : LifeDomainState)
    (hd : settings.find? (fun d => d.id == domainId) = some domain)
    (hs : domain.states.find? (fun s => s.id == stateId) = some state) :
    ((getLogsForDate (addLog settings store tzOffset domainId stateId note ts).store
        (getDateKeyFromTs tzOffset ts) domainId).getLast?).map (fun e => e.note) =
      some (trimNote note) ∧
    (∀ s, note = some s → trimJS s ≠ "" → trimNote note = some (trimJS s)) ∧
    (note = none → trimNote note = none) ∧
    (∀ s, note = some s → trimJS s = "" → trimNote note = none) := by
  refine ⟨?_, ?_, ?_, ?_⟩
  · rw [(addLog_appends settings store tzOffset domainId stateId note ts domain state hd hs).2,
      List.getLast?_concat]
    rfl
  · intro s hsome hne
    simp [hsome, trimNote, hne]
  · intro hnone
    simp [hnone, trimNote]
  · intro s hsome hempty
    simp [hsome, trimNote, hempty]

/-- Witness for C10 with a padded note at a concrete configuration. -/
theorem C10_witness :
    ((getLogsForDate
        (addLog [⟨"d", "D", [⟨"s", "S", 2⟩], .sum⟩] [] 0 "d" "s" (some "  x  ") 0).store
        (getDateKeyFromTs 0 0) "d").getLast?).map (fun e => e.note) =
      some (trimNote (some "  x  ")) := by
  exact (C10_note_normalisation [⟨"d", "D", [⟨"s", "S", 2⟩], .sum⟩] [] 0 "d" "s"
    (some "  x  ") 0 ⟨"d", "D", [⟨"s", "S", 2⟩], .sum⟩ ⟨"s", "S", 2⟩
    (by decide) (by decide)).1

/-! ## Date ranges (C4, C5) -/

theorem range_reverse_map (N : Nat) (t : Int) :
    ((List.range N).reverse).map (fun (i : Nat) => t - (i : Int)) =
      (List.range N).map (fun (i : Nat) => t - ((N : Int) - 1) + (i : Int)) := by
  induction N with
  | zero => rfl
  | succ n ih =>
    conv_lhs => rw [List.range_succ, List.reverse_append]
    simp only [List.reverse_cons, List.reverse_nil, List.nil_append, List.singleton_append,
      List.map_cons, ih]
    conv_rhs => rw [List.range_succ_eq_map]
    rw [List.map_cons, List.map_map]
    congr 1
    · push_cast
      ring
    · refine List.map_congr_left (fun i _ => ?_)
      simp only [Function.comp_apply]
      push_cast
      ring

/-- C5: for every store (data or none) and every fixed window `Nd`, the
resolved date range is exactly the `N` consecutive calendar dateKeys
ending at today, independent of which dates hold data. -/
theorem C5_fixed_window_range (rangeKey : RangeKey) (availableDates : List Int)
    (todayKey : Int) (N : Nat) (h : rangeKey.windowDays = some N) :
    buildDateRange rangeKey availableDates todayKey =
      (List.range N).map (fun (i : Nat) => todayKey - ((N : Int) - 1) + (i : Int)) ∧
    (buildDateRange rangeKey availableDates todayKey).length = N ∧
    (buildDateRange rangeKey availableDates todayKey).getLast? = some todayKey ∧
    (∀ dates2, buildDateRange rangeKey availableDates todayKey =
      buildDateRange rangeKey dates2 todayKey) := by
  have hN : 0 < N := by
    cases rangeKey <;> simp [RangeKey.windowDays] at h <;> omega
  have heq : buildDateRange rangeKey availableDates todayKey =
      ((List.range N).reverse).map (fun (i : Nat) => todayKey - (i : Int)) := by
    simp [buildDateRange, h]
  refine ⟨heq.trans (range_reverse_map N todayKey), ?_, ?_, fun dates2 => by
    simp [buildDateRange, h]⟩
  · rw [heq]
    simp
  · rw [heq, List.getLast?_map, List.getLast?_reverse]
    obtain ⟨m, rfl⟩ : ∃ m, N = m + 1 := ⟨N - 1, by omega⟩
    rw [List.range_succ_eq_map]
    simp

/-- Witness for C5: the 7-day window over an empty store has exactly 7
dates ending at today. -/
theorem C5_witness :
    (buildDateRange RangeKey.d7 [] 0).length = 7 ∧
    (buildDateRange RangeKey.d7 [] 0).getLast? = some 0 := by
  have h := C5_fixed_window_range RangeKey.d7 [] 0 7 rfl
  exact ⟨h.2.1, h.2.2.1⟩

/-! ## Downsampling (C6) -/

theorem sampleLoop_length_aux {α : Type} (points : List α) (step : Nat)
    (hstep : 0 < step) :
    ∀ m i, points.length - i ≤ m →
      (sampleLoop points step i).length = (points.length - i + step - 1) / step := by
  intro m
  induction m with
  | zero =>
    intro i hi
    rw [sampleLoop, dif_neg (by omega)]
    have h0 : points.length - i = 0 := by omega
    rw [h0, List.length_nil]
    exact (Nat.div_eq_of_lt (by omega)).symm
  | succ m ih =>
    intro i hi
    by_cases hlt : i < points.length
    · rw [sampleLoop, dif_pos ⟨hlt, hstep⟩, List.length_cons,
        ih (i + step) (by omega)]
      have hL : points.length - (i + step) = points.length - i - step := by omega
      rw [hL]
      by_cases hms : points.length - i ≤ step
      · have h1 : points.length - i - step = 0 := by omega
        have h2 : points.length - i + step - 1 = (points.length - i - 1) + step := by omega
        rw [h1, h2, Nat.add_div_right _ hstep,
          Nat.div_eq_of_lt (show points.length - i - 1 < step by omega)]
        have h3 : 0 + step - 1 < step := by omega
        rw [Nat.div_eq_of_lt h3]
      · have h4 : points.length - i - step + step - 1 = points.length - i - 1 := by omega
        have h5 : points.length - i + step - 1 = (points.length - i - 1) + step := by omega
        rw [h4, h5, Nat.add_div_right _ hstep]
    · rw [sampleLoop, dif_neg (by omega)]
      have h0 : points.length - i = 0 := by omega
      rw [h0, List.length_nil]
      exact (Nat.div_eq_of_lt (by omega)).symm

theorem sampleLoop_length {α : Type} (points : List α) (step : Nat)
    (hstep : 0 < step) (i : Nat) :
    (sampleLoop points step i).length = (points.length - i + step - 1) / step :=
  sampleLoop_length_aux points step hstep (points.length - i) i le_rfl

theorem sampleLoop_get_aux {α : Type} (points : List α) (step : Nat)
    (hstep : 0 < step) :
    ∀ m i, points.length - i ≤ m →
      ∀ k, (sampleLoop points step i).get? k = points.get? (i + k * step) := by
  intro m
  induction m with
  | zero =>
    intro i hi k
    rw [sampleLoop, dif_neg (by omega)]
    rw [show ([] : List α).get? k = none from rfl]
    exact (List.get?_eq_none.2 (by omega)).symm
  | succ m ih =>
    intro i hi k
    by_cases hlt : i < points.length
    · rw [sampleLoop, dif_pos ⟨hlt, hstep⟩]
      cases k with
      | zero =>
        rw [show ∀ (x : α) t, (x :: t).get? 0 = some x from fun _ _ => rfl]
        rw [show i + 0 * step = i by ring, List.get?_eq_get hlt]
      | succ k =>
        rw [show ∀ (x : α) t, (x :: t).get? (k + 1) = t.get? k from fun _ _ => rfl]
        rw [ih (i + step) (by omega) k]
        congr 1
        ring
    · rw [sampleLoop, dif_neg (by omega)]
      rw [show ([] : List α).get? k = none from rfl]
      exact (List.get?_eq_none.2 (by omega)).symm

theorem sampleLoop_get {α : Type} (points : List α) (step : Nat)
    (hstep : 0 < step) (i k : Nat) :
    (sampleLoop points step i).get? k = points.get? (i + k * step) :=
  sampleLoop_get_aux points step hstep (points.length - i) i le_rfl k

/-- C6: `downsample` is the identity when the budget suffices (hence
idempotent there); over budget, with `step = ceil(length / maxPoints)`, it
returns exactly the points at indices `0, step, 2·step, …` — that is
`ceil(length / step)` points — and always keeps the first point. -/
theorem C6_downsample {α : Type} (points : List α) (maxPoints : Nat)
    (hmax : 0 < maxPoints) :
    (points.length ≤ maxPoints → downsample points maxPoints = points) ∧
    (maxPoints < points.length →
      (downsample points maxPoints).length =
        (points.length + (points.length + maxPoints - 1) / maxPoints - 1) /
          ((points.length + maxPoints - 1) / maxPoints) ∧
      (∀ k, (downsample points maxPoints).get? k =
        points.get? (k * ((points.length + maxPoints - 1) / maxPoints))) ∧
      (downsample points maxPoints).head? = points.head?) := by
  constructor
  · intro hle
    simp [downsample, hle]
  · intro hgt
    have hne : ¬ points.length ≤ maxPoints := by omega
    have hmz : ¬ maxPoints = 0 := by omega
    have hstep : 0 < (points.length + maxPoints - 1) / maxPoints := by
      rw [Nat.lt_iff_add_one_le, Nat.one_le_div_iff hmax]
      omega
    simp only [downsample, if_neg hne, if_neg hmz]
    refine ⟨?_, ?_, ?_⟩
    · rw [sampleLoop_length points _ hstep 0, Nat.sub_zero]
    · intro k
      rw [sampleLoop_get points _ hstep 0 k, Nat.zero_add]
    · rw [← List.get?_zero, ← List.get?_zero, sampleLoop_get points _ hstep 0 0]
      norm_num

/-- Witness for C6: identity within budget, and the first point survives
decimation, at concrete inputs. -/
theorem C6_witness :
    downsample ([10, 11, 12] : List Nat) 5 = [10, 11, 12] ∧
    (downsample ([10, 11, 12, 13, 14] : List Nat) 2).head? =
      ([10, 11, 12, 13, 14] : List Nat).head? := by
  exact ⟨(C6_downsample [10, 11, 12] 5 (by decide)).1 (by decide),
    ((C6_downsample [10, 11, 12, 13, 14] 2 (by decide)).2 (by decide)).2.2⟩

/-! ## Moving average (C7) -/

theorem foldl_rat_add (l : List ℚ) (a : ℚ) :
    l.foldl (fun acc v => acc + v) a = a + l.sum := by
  induction l generalizing a with
  | nil => simp
  | cons x t ih => simp [ih, add_assoc]

theorem round3_idem (x : ℚ) : round3 (round3 x) = round3 x := by
  unfold round3
  have h1 : ((⌊x * 1000 + 1 / 2⌋ : ℤ) : ℚ) / 1000 * 1000 + 1 / 2 =
      ((⌊x * 1000 + 1 / 2⌋ : ℤ) : ℚ) + 1 / 2 := by
    rw [div_mul_cancel₀]
    norm_num
  rw [h1]
  have h2 : (⌊((⌊x * 1000 + 1 / 2⌋ : ℤ) : ℚ) + 1 / 2⌋ : ℤ) = ⌊x * 1000 + 1 / 2⌋ := by
    rw [Int.floor_int_add]
    norm_num [Int.floor_eq_iff]
  rw [h2]

/-- C7: `applyMovingAverage` is the identity for `window ≤ 1`; for
`window > 1` it preserves length and sets index `i` to the arithmetic mean
of the trailing slice `values[max(0, i-window+1) .. i]` (whose width is
`min window (i+1)`), rounded to 3 decimals; in particular a singleton list
is returned unchanged up to 3-decimal rounding for every window. -/
theorem C7_moving_average (values : List ℚ) (window : Nat) :
    (window ≤ 1 → applyMovingAverage values window = values) ∧
    (1 < window →
      (applyMovingAverage values window).length = values.length ∧
      (∀ i, i < values.length →
        (applyMovingAverage values window).get? i =
          some (round3
            (((values.drop (i + 1 - window)).take (window ⊓ (i + 1))).sum /
              ((window ⊓ (i + 1) : Nat) : ℚ))))) ∧
    (∀ a : ℚ, (applyMovingAverage [a] window).map round3 = [round3 a]) := by
  refine ⟨?_, ?_, ?_⟩
  · intro hle
    simp [applyMovingAverage, hle]
  · intro hgt
    have hne : ¬ window ≤ 1 := by omega
    simp only [applyMovingAverage, if_neg hne]
    constructor
    · simp
    · intro i hi
      rw [List.get?_eq_getElem?, List.getElem?_map, List.getElem?_range hi,
        Option.map_some']
      congr 1
      have h1 : i + 1 - (i + 1 - window) = window ⊓ (i + 1) := by omega
      rw [h1]
      have h2 : ((values.drop (i + 1 - window)).take (window ⊓ (i + 1))).length =
          window ⊓ (i + 1) := by
        rw [List.length_take, List.length_drop]
        omega
      rw [foldl_rat_add, zero_add, h2]
  · intro a
    by_cases hle : window ≤ 1
    · simp [applyMovingAverage, hle]
    · have h1 : 1 - window = 0 := by omega
      simp only [applyMovingAverage, if_neg hle, List.length_singleton]
      rw [show List.range 1 = [0] from rfl]
      simp only [List.map_cons, List.map_nil, h1]
      norm_num [foldl_rat_add, round3_idem]

/-- Witness for C7: identity at window 1, length preservation at window 2,
and the singleton law, at concrete inputs. -/
theorem C7_witness :
    applyMovingAverage [1, 2] 1 = [1, 2] ∧
    (applyMovingAverage [1, 2] 2).length = ([1, 2] : List ℚ).length ∧
    (applyMovingAverage [1 / 3] 5).map round3 = [round3 (1 / 3)] := by
  refine ⟨(C7_moving_average [1, 2] 1).1 (by decide), ?_, (C7_moving_average [1 / 3] 5).2.2 _⟩
  exact ((C7_moving_average [1, 2] 2).2.1 (by decide)).1

/-! ## Future-date filtering (C4) -/

theorem mem_sampleLoop_aux {α : Type} (points : List α) (step : Nat) :
    ∀ m i x, points.length - i ≤ m → x ∈ sampleLoop points step i → x ∈ points := by
  intro m
  induction m with
  | zero =>
    intro i x hi hx
    rw [sampleLoop, dif_neg (by omega)] at hx
    simp at hx
  | succ m ih =>
    intro i x hi hx
    by_cases hcond : i < points.length ∧ 0 < step
    · rw [sampleLoop, dif_pos hcond] at hx
      rcases List.mem_cons.1 hx with hx | hx
      · exact hx ▸ List.get_mem _ _ _
      · exact ih (i + step) x (by omega) hx
    · rw [sampleLoop, dif_neg hcond] at hx
      simp at hx

theorem mem_downsample {α : Type} {points : List α} {maxPoints : Nat} {x : α}
    (h : x ∈ downsample points maxPoints) : x ∈ points := by
  by_cases h1 : points.length ≤ maxPoints
  · simpa [downsample, h1] using h
  · by_cases h2 : maxPoints = 0
    · subst h2
      simp only [downsample, if_neg h1, if_pos rfl] at h
      exact List.mem_of_mem_take h
    · simp only [downsample, if_neg h1, if_neg h2] at h
      exact mem_sampleLoop_aux points _ points.length 0 x (by omega) h

/-- C4 counterexample: for range `"all"` the heatmap date range is the
sorted stored dates with no clock guard, so a stored dateKey strictly
after today (here `5 > 0`) is included. -/
theorem C4_counterexample :
    buildDateRange RangeKey.all [5] 0 = [5] ∧ ¬ ((5 : Int) ≤ 0) := by
  constructor <;> decide

/-- C4 (amended): the point-series date filter (`buildPoints`) never emits
a dateKey strictly after today for any range key, and the heatmap date
range (`buildDateRange`) never does for the fixed windows; for `"all"`,
however, `buildDateRange` returns exactly the sorted stored dates and so
does include future dateKeys when the store holds them. -/
theorem C4_no_future_dates {α : Type} (store : Store) (rangeKey : RangeKey)
    (todayKey : Int) (valueFn : Int → α) (availableDates : List Int) :
    (∀ dk ∈ (buildPoints store rangeKey todayKey valueFn).map Prod.fst,
      dk ≤ todayKey) ∧
    (rangeKey ≠ RangeKey.all →
      ∀ dk ∈ buildDateRange rangeKey availableDates todayKey, dk ≤ todayKey) := by
  constructor
  · intro dk hdk
    rw [List.mem_map] at hdk
    obtain ⟨pr, hpr, rfl⟩ := hdk
    by_cases hempty : (sortAsc (store.map Prod.fst)).isEmpty
    · simp [buildPoints, hempty] at hpr
    · simp only [buildPoints, hempty, Bool.false_eq_true, if_neg, not_false_iff] at hpr
      have hmem := mem_downsample hpr
      rw [List.mem_filterMap] at hmem
      obtain ⟨d, _, hg⟩ := hmem
      by_cases hc1 : (match rangeKey.windowDays.map
          (fun (n : Nat) => todayKey - ((n : Int) - 1)) with
          | some s => decide (d < s)
          | none => false) = true
      · rw [if_pos hc1] at hg
        cases hg
      · rw [if_neg hc1] at hg
        by_cases hc2 : todayKey < d
        · rw [if_pos hc2] at hg
          cases hg
        · rw [if_neg hc2] at hg
          cases hg
          omega
  · intro hall dk hdk
    have hN : ∃ N, rangeKey.windowDays = some N := by
      cases rangeKey <;> simp [RangeKey.windowDays] at hall ⊢
    obtain ⟨N, hN⟩ := hN
    simp only [buildDateRange, hN, List.mem_map] at hdk
    obtain ⟨i, _, rfl⟩ := hdk
    omega

/-- Witness for C4 (amended): a store whose only date is after today
yields no point at all for a fixed window, and the 7-day heatmap range
stays at or before today. -/
theorem C4_witness :
    (∀ dk ∈ (buildPoints [(5, [("d", [⟨"s", 1, 0, none, 0⟩])])] RangeKey.d7 0
        (fun _ => (0 : ℚ))).map Prod.fst, dk ≤ 0) ∧
    (∀ dk ∈ buildDateRange RangeKey.d7 [5] 0, dk ≤ 0) := by
  have h := C4_no_future_dates [(5, [("d", [⟨"s", 1, 0, none, 0⟩])])] RangeKey.d7 0
    (fun _ => (0 : ℚ)) [5]
  exact ⟨h.1, h.2 (by decide)⟩

end DomainLifeTracker
